import Mathlib

/-!
Verification development for the foss-build application
(src/foss_build/app.py together with its bundled src/docopt/__init__.py stub).

The embedding below translates the program into Lean:
  * strings are `String` / `List Char`;
  * the regular-expression substitutions of `filter_output` (app.py lines
    128-134) are translated into executable scanners that reproduce Python
    `re.sub` semantics (leftmost, non-overlapping, greedy) for the four
    concrete patterns appearing in the source;
  * filesystem state is a list of existing path names, subprocesses are
    oracles (the list of lines the child prints and its exit status),
    and Python exceptions are the `.error` branch of `Except`.
-/

/-! ## Python character classes

`pySpace` is CPython's Unicode whitespace table (`Py_UNICODE_ISSPACE`),
which is the character set matched by `\s` in `re` on `str`, stripped by
`str.strip()`, and skipped by `int()` around a numeral. -/

def pySpace (c : Char) : Bool :=
  let n := c.toNat
  (9 ≤ n && n ≤ 13) || (28 ≤ n && n ≤ 31) || n == 32 ||
    n == 0x85 || n == 0xA0 || n == 0x1680 ||
    (0x2000 ≤ n && n ≤ 0x200A) || n == 0x2028 || n == 0x2029 ||
    n == 0x202F || n == 0x205F || n == 0x3000

def notNl (c : Char) : Bool := c != '\n'

def isNl (c : Char) : Bool := c == '\n'

/-- `str.strip()` on the underlying character list. -/
def stripSpaces (l : List Char) : List Char :=
  ((l.dropWhile pySpace).reverse.dropWhile pySpace).reverse

/-- Python `line.strip()` (app.py line 243). -/
def pyStrip (s : String) : String := String.mk (stripSpaces s.data)

/-! ## Python `int(...)` on a string

Model of CPython `int(str)` restricted to ASCII decimal numerals:
surrounding whitespace is ignored, one optional sign, then a nonempty
digit sequence in which single underscores may separate digits.
(CPython additionally accepts non-ASCII decimal digits; those are outside
the scope of this model and of every claim.) -/

def isDigitChar (c : Char) : Bool := 48 ≤ c.toNat && c.toNat ≤ 57

def digitVal (c : Char) : Nat := c.toNat - 48

def pyDigitsAux : List Char → Nat → Option Nat
  | [], acc => some acc
  | '_' :: c :: rest, acc =>
      if isDigitChar c then pyDigitsAux rest (acc * 10 + digitVal c) else none
  | c :: rest, acc =>
      if isDigitChar c then pyDigitsAux rest (acc * 10 + digitVal c) else none

def pyDigits : List Char → Option Nat
  | c :: rest => if isDigitChar c then pyDigitsAux rest (digitVal c) else none
  | [] => none

def pyIntOfString (s : String) : Option Int :=
  match stripSpaces s.data with
  | '+' :: rest => (pyDigits rest).map (fun n => (n : Int))
  | '-' :: rest => (pyDigits rest).map (fun n => -(n : Int))
  | rest => (pyDigits rest).map (fun n => (n : Int))

/-! ## Constants (app.py lines 45-47) -/

def DEFAULT_PARALLEL : Int := 8

def DEFAULT_PREFIX : String := "/usr/local"

def STOW_PREFIX_BASE : String := "/opt/stow"

/-- app.py line 68: `parallel = int(os.getenv("PARALLEL", DEFAULT_PARALLEL))`.
When the variable is unset `os.getenv` returns the default `int` 8 and
`int(8) = 8`; when it is set, `int` parses the string and raises
`ValueError` (modelled as `.error`) if it is not a numeral. -/
def resolveParallel (env : Option String) : Except String Int :=
  match env with
  | none => .ok DEFAULT_PARALLEL
  | some v =>
    match pyIntOfString v with
    | some n => .ok n
    | none => .error "ValueError"

/-! ## The bundled docopt stub (src/docopt/__init__.py)

The stub builds a Python dict with the keys `--large`, `--no-sudo` and
`<command>`; the dict is modelled as an insertion-ordered association
list. -/

inductive DVal where
  | bool : Bool → DVal
  | strs : List String → DVal
deriving DecidableEq

def dictGet : List (String × DVal) → String → Option DVal
  | [], _ => none
  | (k, v) :: rest, k' => if k == k' then some v else dictGet rest k'

def dictSet : List (String × DVal) → String → DVal → List (String × DVal)
  | [], k, v => [(k, v)]
  | (k0, v0) :: rest, k, v =>
    if k0 == k then (k0, v) :: rest else (k0, v0) :: dictSet rest k v

/-- One iteration of the stub's `for arg in argv` loop. -/
def docoptStep (d : List (String × DVal)) (arg : String) : List (String × DVal) :=
  if arg == "--large" then dictSet d "--large" (.bool true)
  else if arg == "--no-sudo" then dictSet d "--no-sudo" (.bool true)
  else
    match dictGet d "<command>" with
    | some (.strs l) => dictSet d "<command>" (.strs (l ++ [arg]))
    | _ => d  -- unreachable: the initial dict always carries the key

def docoptInit : List (String × DVal) :=
  [("--large", .bool false), ("--no-sudo", .bool false), ("<command>", .strs [])]

def docopt (argv : List String) : List (String × DVal) :=
  argv.foldl docoptStep docoptInit

def defaultSteps : List String :=
  ["autoconf", "configure", "build", "test", "install"]

/-- Python truthiness of the dict values involved. -/
def truthy : DVal → Bool
  | .bool b => b
  | .strs l => !l.isEmpty

/-- The value `main` would pass on as its step list (only the list case is
reachable by construction of the dict). -/
def stepsOfVal : DVal → List String
  | .strs cs => cs
  | .bool _ => []

/-- app.py lines 84-88: `steps = args["commands"] if args["commands"] else
[...]`.  Subscripting a dict that lacks the key raises `KeyError`. -/
def mainSteps (argv : List String) : Except String (List String) :=
  match dictGet (docopt argv) "commands" with
  | none => .error "KeyError: commands"
  | some v => .ok (if truthy v then stepsOfVal v else defaultSteps)

/-! ## Trigger files and state resolution (app.py lines 68-89)

The filesystem is the predicate of the paths that exist; `touch` is
`Path(p).touch(exist_ok=...)`: with `exist_ok` it never fails, without it
an existing path is a `FileExistsError`. -/

def touch (fs : String → Bool) (path : String) (exist_ok : Bool) :
    Except String (String → Bool) :=
  if fs path then
    if exist_ok then .ok fs else .error "FileExistsError"
  else .ok (fun q => q == path || fs q)

structure Resolved where
  use_stow : Bool
  use_sudo : Bool
  prefix_ : String
  fs : String → Bool

/-- app.py lines 69-82: prefix / stow / sudo resolution.  `prefix_` models
the Python local `prefix` (a Lean keyword).  `large` and `no_sudo` are the
parsed `--large` / `--no-sudo` flags, `fs` the current working directory
contents, `prefixEnv` the `PREFIX` environment variable and `cwdName` the
basename of the current working directory. -/
def mainResolve (large no_sudo : Bool) (fs : String → Bool)
    (prefixEnv : Option String) (cwdName : String) :
    Except String Resolved :=
  let prefix0 := prefixEnv.getD DEFAULT_PREFIX
  let use_stow := large || fs ".stow"
  let use_sudo := !no_sudo && !fs ".no-sudo"
  match (if use_stow then
          match touch fs ".stow" true with
          | .ok fs' => .ok (STOW_PREFIX_BASE ++ "/" ++ cwdName, fs')
          | .error e => .error e
         else .ok (prefix0, fs) : Except String (String × (String → Bool))) with
  | .error e => .error e
  | .ok (prefix1, fs1) =>
    match (if no_sudo then touch fs1 ".no-sudo" true else .ok fs1) with
    | .error e => .error e
    | .ok fs2 => .ok ⟨use_stow, use_sudo, prefix1, fs2⟩

/-! ## Output sanitizer (app.py lines 118-135)

Each `re.sub(pattern, repl, s)` is embedded as an executable scanner with
Python's semantics: scan left to right, at each position try the pattern
(greedy), replace the leftmost match and continue right after it. -/

def csiParam (c : Char) : Bool := (48 ≤ c.toNat && c.toNat ≤ 57) || c == ';'

def asciiLetter (c : Char) : Bool :=
  (65 ≤ c.toNat && c.toNat ≤ 90) || (97 ≤ c.toNat && c.toNat ≤ 122)

/-- Length of a match of `\[[0-9;]*[a-zA-Z]` (the part of the ANSI pattern
after the initial escape byte) at the head of `l`, if any.  Because
`[0-9;]` and `[a-zA-Z]` are disjoint, the greedy parameter run admits no
backtracking. -/
def csiLen (l : List Char) : Option Nat :=
  match l with
  | '[' :: r =>
    match r.dropWhile csiParam with
    | d :: _ => if asciiLetter d then some (1 + (r.takeWhile csiParam).length + 1)
                else none
    | [] => none
  | _ => none

/-- `re.sub(r"\x1b\[[0-9;]*[a-zA-Z]", "", output)` (app.py line 128). -/
def sub1 : List Char → List Char
  | [] => []
  | c :: rest =>
    if c = '\x1b' then
      match csiLen rest with
      | some n => sub1 (rest.drop n)
      | none => c :: sub1 rest
    else c :: sub1 rest
termination_by l => l.length
decreasing_by
  · simp only [List.length_cons, List.length_drop]; omega
  · simp only [List.length_cons]; omega
  · simp only [List.length_cons]; omega

/-- The part of the title segment after its last BEL character. -/
def afterLastBel (seg : List Char) : List Char :=
  ((seg.reverse.takeWhile (fun c => c != '\x07')).reverse)

/-- Length of a match of `]0;.*\x07` (the part of the xterm-title pattern
after the initial escape byte) at the head of `l`, if any.  `.` does not
match a newline and `.*` is greedy, so the match runs to the last BEL
before the next newline. -/
def oscLen (l : List Char) : Option Nat :=
  match l with
  | ']' :: '0' :: ';' :: rest =>
    let seg := rest.takeWhile notNl
    if '\x07' ∈ seg then some (3 + (seg.length - (afterLastBel seg).length))
    else none
  | _ => none

/-- `re.sub(r"\x1b]0;.*\x07", "", output)` (app.py line 129). -/
def sub2 : List Char → List Char
  | [] => []
  | c :: rest =>
    if c = '\x1b' then
      match oscLen rest with
      | some n => sub2 (rest.drop n)
      | none => c :: sub2 rest
    else c :: sub2 rest
termination_by l => l.length
decreasing_by
  · simp only [List.length_cons, List.length_drop]; omega
  · simp only [List.length_cons]; omega
  · simp only [List.length_cons]; omega

/-- Character class `[\x01-\x09\x0B\x0C\x0E-\x1F\x7F]` (app.py line 131).
Note that NUL, newline and carriage return are not in it. -/
def removedCtrl (c : Char) : Bool :=
  let n := c.toNat
  (1 ≤ n && n ≤ 9) || n == 11 || n == 12 || (14 ≤ n && n ≤ 31) || n == 127

/-- `re.sub(r"[\x01-\x09\x0B\x0C\x0E-\x1F\x7F]", "", output)` (line 130). -/
def sub3 (l : List Char) : List Char := l.filter (fun c => !removedCtrl c)

/-- The part of a whitespace run after its last newline. -/
def afterLastNl (w : List Char) : List Char :=
  ((w.reverse.takeWhile notNl).reverse)

theorem takeWhile_length_lt_of_mem {p : Char → Bool} {a : Char} :
    ∀ {l : List Char}, a ∈ l → p a = false → (l.takeWhile p).length < l.length := by
  intro l
  induction l with
  | nil => intro h; cases h
  | cons c t ih =>
    intro hmem hpa
    by_cases hc : p c
    · have ha : a ∈ t := by
        rcases List.mem_cons.mp hmem with rfl | h
        · rw [hpa] at hc; cases hc
        · exact h
      have := ih ha hpa
      rw [List.takeWhile_cons_of_pos hc]
      simp only [List.length_cons]
      omega
    · rw [List.takeWhile_cons_of_neg hc]
      simp only [List.length_nil, List.length_cons]
      omega

theorem afterLastNl_length_lt {w : List Char} (h : '\n' ∈ w) :
    (afterLastNl w).length < w.length := by
  have h' : '\n' ∈ w.reverse := List.mem_reverse.mpr h
  have hn : notNl '\n' = false := by decide
  have := takeWhile_length_lt_of_mem h' hn
  simpa [afterLastNl] using this

theorem takeWhile_add_dropWhile_length (p : Char → Bool) (l : List Char) :
    (l.takeWhile p).length + (l.dropWhile p).length = l.length := by
  rw [← List.length_append, List.takeWhile_append_dropWhile]

/-- `re.sub(r"\n\s*\n", "\n", output)` (app.py line 133).  At a newline the
greedy `\s*` runs through the maximal whitespace block and backtracks to
the last newline inside it; if the block contains none, there is no match
at this position and scanning moves one character right. -/
def sub4 : List Char → List Char
  | [] => []
  | c :: rest =>
    if h : c = '\n' ∧ '\n' ∈ rest.takeWhile pySpace then
      '\n' :: sub4 (afterLastNl (rest.takeWhile pySpace) ++ rest.dropWhile pySpace)
    else
      c :: sub4 rest
termination_by l => l.length
decreasing_by
  · have h1 := afterLastNl_length_lt h.2
    have h2 := takeWhile_add_dropWhile_length pySpace rest
    simp only [List.length_append, List.length_cons]
    omega
  · simp only [List.length_cons]; omega

/-- `re.sub(r"\n{2,}", "\n", output)` (app.py line 134).  A run of two or
more newlines collapses to one; a single newline is not a match. -/
def sub5 : List Char → List Char
  | [] => []
  | [c] => [c]
  | a :: b :: rest =>
    if a = '\n' ∧ b = '\n' then
      '\n' :: sub5 ((b :: rest).dropWhile isNl)
    else
      a :: sub5 (b :: rest)
termination_by l => l.length
decreasing_by
  · have := (List.dropWhile_sublist (l := b :: rest) isNl).length_le
    simp only [List.length_cons] at this ⊢
    omega
  · simp only [List.length_cons]; omega

/-- app.py lines 128-134: the body of `filter_output` on character lists. -/
def filter_chars (l : List Char) : List Char :=
  sub5 (sub4 (sub3 (sub2 (sub1 l))))

/-- app.py lines 118-135: `filter_output`. -/
def filter_output (s : String) : String := String.mk (filter_chars s.data)

/-- A match of `\n\s*\n` starts somewhere in `l`. -/
def hasM4 : List Char → Prop
  | [] => False
  | c :: rest => (c = '\n' ∧ '\n' ∈ rest.takeWhile pySpace) ∨ hasM4 rest

/-- A match of `\n{2,}` starts somewhere in `l`. -/
def hasM5 : List Char → Prop
  | [] => False
  | [_] => False
  | a :: b :: rest => (a = '\n' ∧ b = '\n') ∨ hasM5 (b :: rest)

/-! ## Process runner (app.py lines 223-256)

The child process is an oracle: the lines it prints on its merged
stdout/stderr stream and its exit status.  `log` (app.py lines 57-59) has
exactly one parameter; `pyCallLog` models a Python call to it with a given
positional argument list. -/

def log (message : String) : Unit := ()

def pyCallLog : List String → Except String Unit
  | [message] => .ok (log message)
  | _ => .error "TypeError: log() takes 1 positional argument but 2 were given"

/-- The `for line in process.stdout` loop (app.py lines 242-244): each line
is passed to `log(line.strip(), raw_log_file)` — a two-argument call —
and then appended to the raw log. -/
def run_command_loop (rawLogFile : String) :
    List String → List String → Except String (List String)
  | [], raw => .ok raw
  | line :: rest, raw =>
    match pyCallLog [pyStrip line, rawLogFile] with
    | .ok _ => run_command_loop rawLogFile rest (raw ++ [line])
    | .error e => .error e

/-- app.py lines 223-256: `run_command(command, log_dir)`.  `childLines`
and `childExit` are the behaviour of the spawned process.  On success the
result carries the exit status, the raw log contents and the sanitized txt
log contents. -/
def run_command (command : List String) (log_dir : String)
    (childLines : List String) (childExit : Int) :
    Except String (Int × String × String) :=
  match run_command_loop (log_dir ++ "/raw") childLines [] with
  | .error e => .error e
  | .ok rawLines =>
    let raw_content := String.join rawLines
    .ok (childExit, raw_content, filter_output raw_content)

/-! ## Step registry (app.py lines 138-220)

Each step function receives the same four arguments as in the source plus
the environment: `configure_ac` (does `configure.ac` exist, app.py
line 151) and `runner`, the exit status the external world assigns to a
spawned command.  The result is the exit status together with the list of
`run_command` invocations the step performed. -/

def run_autoconf (log_dir prefix_ : String) (parallel : Int) (use_sudo : Bool)
    (configure_ac : Bool) (runner : List String → Int) :
    Int × List (List String) :=
  if configure_ac then (runner ["autoconf"], [["autoconf"]]) else (0, [])

def run_configure (log_dir prefix_ : String) (parallel : Int) (use_sudo : Bool)
    (runner : List String → Int) : Int × List (List String) :=
  let cmd := ["./configure", "--prefix=" ++ prefix_]
  (runner cmd, [cmd])

def run_build (log_dir prefix_ : String) (parallel : Int) (use_sudo : Bool)
    (runner : List String → Int) : Int × List (List String) :=
  let cmd := ["make", "-j" ++ toString parallel]
  (runner cmd, [cmd])

def run_test (log_dir prefix_ : String) (parallel : Int) (use_sudo : Bool)
    (runner : List String → Int) : Int × List (List String) :=
  let cmd := ["make", "-j" ++ toString parallel, "test"]
  (runner cmd, [cmd])

def run_install (log_dir prefix_ : String) (parallel : Int) (use_sudo : Bool)
    (runner : List String → Int) : Int × List (List String) :=
  let command := ["make", "-j" ++ toString parallel, "install"]
  let command := if use_sudo then "sudo" :: command else command
  (runner command, [command])

/-! ## Pipeline orchestrator (app.py lines 93-115) -/

def stepNames : List String :=
  ["autoconf", "configure", "build", "test", "install"]

inductive StepsOutcome where
  | completed : StepsOutcome
  | exited : Int → StepsOutcome
  | keyError : String → StepsOutcome
deriving DecidableEq

/-- app.py lines 111-115, from position `i`: look the step name up in
`step_functions` (an unknown name raises `KeyError`), run it (the oracle
`status` gives the exit code of the step at each index) and `sys.exit`
on the first non-zero code.  The first component is the list of
(index, name) pairs of the steps that were executed. -/
def run_steps_from (status : Nat → Int) :
    List String → Nat → List (Nat × String) × StepsOutcome
  | [], _ => ([], .completed)
  | s :: rest, i =>
    if stepNames.contains s then
      if status i = 0 then
        let r := run_steps_from status rest (i + 1)
        ((i, s) :: r.1, r.2)
      else ([(i, s)], .exited (status i))
    else ([], .keyError s)

/-- app.py lines 93-115: `run_steps` (the `prefix`/`parallel`/`use_sudo`
arguments only flow into the step functions, which the `status` oracle
abstracts). -/
def run_steps (steps : List String) (status : Nat → Int) :
    List (Nat × String) × StepsOutcome :=
  run_steps_from status steps 0

/-- The process exit status each outcome produces: falling off `main`
exits 0, `sys.exit(c)` exits `c`, an uncaught `KeyError` exits 1. -/
def overall_exit : StepsOutcome → Int
  | .completed => 0
  | .exited c => c
  | .keyError _ => 1

/-! ## Dictionary lemmas for the docopt embedding -/

theorem dictGet_dictSet_ne (d : List (String × DVal)) (k k' : String) (v : DVal)
    (h : (k == k') = false) : dictGet (dictSet d k v) k' = dictGet d k' := by
  induction d with
  | nil => simp [dictSet, dictGet, h]
  | cons e rest ih =>
    obtain ⟨k0, v0⟩ := e
    by_cases h0 : (k0 == k) = true
    · have hk0 : k0 = k := by simpa using h0
      subst hk0
      simp [dictSet, dictGet, h]
    · simp only [dictSet, h0, if_false, Bool.false_eq_true]
      by_cases h1 : (k0 == k') = true
      · simp [dictGet, h1]
      · simp [dictGet, h1, ih]

theorem dictGet_docoptStep (d : List (String × DVal)) (a : String) :
    dictGet (docoptStep d a) "commands" = dictGet d "commands" := by
  unfold docoptStep
  by_cases h1 : (a == "--large") = true
  · rw [if_pos h1, dictGet_dictSet_ne _ _ _ _ (by decide)]
  · rw [if_neg (by simp [h1])]
    by_cases h2 : (a == "--no-sudo") = true
    · rw [if_pos h2, dictGet_dictSet_ne _ _ _ _ (by decide)]
    · rw [if_neg (by simp [h2])]
      rcases hg : dictGet d "<command>" with _ | v
      · rfl
      · cases v with
        | bool b => rfl
        | strs l => exact dictGet_dictSet_ne _ _ _ _ (by decide)

theorem dictGet_docopt_foldl :
    ∀ (argv : List String) (d : List (String × DVal)),
      dictGet (argv.foldl docoptStep d) "commands" = dictGet d "commands" := by
  intro argv
  induction argv with
  | nil => intro d; rfl
  | cons a rest ih =>
    intro d
    rw [List.foldl_cons, ih, dictGet_docoptStep]

/-- C1: the claim says `main` runs the explicit step list, or the default
five steps, and does not abort before running any step.  The code instead
evaluates `args["commands"]` (app.py line 85) while the bundled docopt
stores the positional arguments under the key `"<command>"`, so every
invocation of `main` raises `KeyError` before any step runs. -/
theorem mainSteps_always_keyError (argv : List String) :
    mainSteps argv = .error "KeyError: commands" := by
  unfold mainSteps docopt
  rw [dictGet_docopt_foldl]
  rfl

/-- C2: the claim says `run_command` logs every line of child output and
returns the child's exit status.  The code calls the one-parameter `log`
with two arguments (app.py line 243), so a child that prints at least one
line makes `run_command` raise `TypeError` instead of returning; only a
child with empty output gets its exit status returned. -/
theorem run_command_crashes_on_first_output_line :
    run_command ["echo", "hello"] "log/0.build" ["hello, world\n"] 0 =
      .error "TypeError: log() takes 1 positional argument but 2 were given" ∧
    run_command ["make", "-j8"] "log/1.build" [] 7 = .ok (7, "", "") := by
  refine ⟨rfl, ?_⟩
  simp only [run_command, run_command_loop, String.join, List.foldl_nil,
    filter_output, filter_chars, sub1, sub2, sub3, sub4, sub5, List.filter_nil]

/-- C5 counterexample: with `PARALLEL` set to `"0"` (not a positive
integer) the claim demands a resolved parallelism of 8, but the code's
`int(...)` coercion yields 0. -/
theorem parallel_zero_counterexample :
    resolveParallel (some "0") = .ok 0 ∧ (0 : Int) ≠ 8 :=
  ⟨rfl, by decide⟩

/-- C5 (amended): unset `PARALLEL` resolves to the default 8; a value
denoting an integer — positive, zero or negative — resolves to that
integer; any other value raises `ValueError` instead of defaulting. -/
theorem resolveParallel_amended :
    resolveParallel none = .ok 8 ∧
    (∀ v n, pyIntOfString v = some n → resolveParallel (some v) = .ok n) ∧
    (∀ v, pyIntOfString v = none → resolveParallel (some v) = .error "ValueError") := by
  refine ⟨rfl, ?_, ?_⟩
  · intro v n h
    simp [resolveParallel, h]
  · intro v h
    simp [resolveParallel, h]

/-- Witness for the amended C5 statement at the concrete value "12". -/
theorem resolveParallel_amended_witness :
    resolveParallel (some "12") = .ok 12 :=
  resolveParallel_amended.2.1 "12" 12 rfl

/-- C7: command construction of the configure, build, test and install
steps, with `sudo` prefixed exactly when `use_sudo` is set. -/
theorem command_construction (log_dir prefix_ : String) (parallel : Int)
    (use_sudo : Bool) (runner : List String → Int) :
    run_configure log_dir prefix_ parallel use_sudo runner =
      (runner ["./configure", "--prefix=" ++ prefix_],
       [["./configure", "--prefix=" ++ prefix_]]) ∧
    run_build log_dir prefix_ parallel use_sudo runner =
      (runner ["make", "-j" ++ toString parallel],
       [["make", "-j" ++ toString parallel]]) ∧
    run_test log_dir prefix_ parallel use_sudo runner =
      (runner ["make", "-j" ++ toString parallel, "test"],
       [["make", "-j" ++ toString parallel, "test"]]) ∧
    run_install log_dir prefix_ parallel use_sudo runner =
      (runner (if use_sudo then ["sudo", "make", "-j" ++ toString parallel, "install"]
               else ["make", "-j" ++ toString parallel, "install"]),
       [if use_sudo then ["sudo", "make", "-j" ++ toString parallel, "install"]
        else ["make", "-j" ++ toString parallel, "install"]]) := by
  refine ⟨rfl, rfl, rfl, ?_⟩
  cases use_sudo <;> rfl

/-- C8: when `configure.ac` is absent the autoconf step performs no
`run_command` invocation and returns 0; when it is present it invokes
exactly `["autoconf"]`. -/
theorem autoconf_noop (log_dir prefix_ : String) (parallel : Int)
    (use_sudo : Bool) (runner : List String → Int) :
    run_autoconf log_dir prefix_ parallel use_sudo false runner = (0, []) ∧
    run_autoconf log_dir prefix_ parallel use_sudo true runner =
      (runner ["autoconf"], [["autoconf"]]) :=
  ⟨rfl, rfl⟩

/-! ## Orchestrator lemmas -/

theorem run_steps_from_ok (status : Nat → Int) :
    ∀ (pre : List String) (i : Nat),
      (∀ s ∈ pre, stepNames.contains s = true) →
      (∀ j, j < pre.length → status (i + j) = 0) →
      ∀ rest, run_steps_from status (pre ++ rest) i =
        ((pre.enumFrom i) ++ (run_steps_from status rest (i + pre.length)).1,
         (run_steps_from status rest (i + pre.length)).2) := by
  intro pre
  induction pre with
  | nil =>
    intro i _ _ rest
    simp [List.enumFrom]
  | cons s pre ih =>
    intro i hv hz rest
    have hs : stepNames.contains s = true := hv s (List.mem_cons_self s pre)
    have h0 : status i = 0 := by simpa using hz 0 (by simp)
    have hz' : ∀ j, j < pre.length → status (i + 1 + j) = 0 := by
      intro j hj
      have harith : i + 1 + j = i + (j + 1) := by omega
      rw [harith]
      exact hz (j + 1) (by simp only [List.length_cons]; omega)
    have hv' : ∀ x ∈ pre, stepNames.contains x = true := by
      intro x hx
      exact hv x (List.mem_cons_of_mem s hx)
    have harith2 : i + (s :: pre).length = i + 1 + pre.length := by
      simp only [List.length_cons]; omega
    have ihh := ih (i + 1) hv' hz' rest
    simp only [List.cons_append, run_steps_from, hs, if_true, h0, if_pos rfl,
      List.enumFrom_cons, harith2]
    rw [show List.append pre rest = pre ++ rest from rfl, ihh]

/-- C3: fail-fast.  If every step before position `k` is a valid step name
and succeeds, the step at `k` is valid and is the first to return a
non-zero status, then `run_steps` executes exactly the steps 0..k, never
the later ones, and the process exit status (`sys.exit`) is that step's
status; if all steps are valid and succeed, the exit status is 0. -/
theorem run_steps_fail_fast :
    (∀ (pre : List String) (sk : String) (post : List String) (status : Nat → Int),
      (∀ s ∈ pre, stepNames.contains s = true) →
      stepNames.contains sk = true →
      (∀ j, j < pre.length → status j = 0) →
      status pre.length ≠ 0 →
      run_steps (pre ++ sk :: post) status =
        (pre.enum ++ [(pre.length, sk)], .exited (status pre.length)) ∧
      overall_exit (run_steps (pre ++ sk :: post) status).2 = status pre.length) ∧
    (∀ (steps : List String) (status : Nat → Int),
      (∀ s ∈ steps, stepNames.contains s = true) →
      (∀ j, status j = 0) →
      run_steps steps status = (steps.enum, .completed) ∧
      overall_exit (run_steps steps status).2 = 0) := by
  constructor
  · intro pre sk post status hpre hsk hz hnz
    have hz0 : ∀ j, j < pre.length → status (0 + j) = 0 := by
      intro j hj
      simpa [Nat.zero_add] using hz j hj
    have h := run_steps_from_ok status pre 0 hpre hz0 (sk :: post)
    have e1 : run_steps_from status (sk :: post) (0 + pre.length) =
        ([(pre.length, sk)], .exited (status pre.length)) := by
      simp only [Nat.zero_add, run_steps_from, hsk, if_true]
      rw [if_neg hnz]
    rw [e1] at h
    have hrs : run_steps (pre ++ sk :: post) status =
        (pre.enum ++ [(pre.length, sk)], .exited (status pre.length)) := by
      show run_steps_from status (pre ++ sk :: post) 0 = _
      rw [h]
      rfl
    refine ⟨hrs, ?_⟩
    rw [hrs]
    rfl
  · intro steps status hv hz
    have hz0 : ∀ j, j < steps.length → status (0 + j) = 0 := by
      intro j _
      simpa [Nat.zero_add] using hz j
    have h := run_steps_from_ok status steps 0 hv hz0 []
    rw [List.append_nil] at h
    have hrs : run_steps steps status = (steps.enum, .completed) := by
      show run_steps_from status steps 0 = _
      rw [h]
      show (List.enumFrom 0 steps ++ ([] : List (Nat × String)),
        StepsOutcome.completed) = (steps.enum, StepsOutcome.completed)
      rw [List.append_nil]
      rfl
    exact ⟨hrs, by rw [hrs]; rfl⟩

/-- Witness for C3 at a concrete run: steps `[configure, build, install]`
where the step at index 1 fails with status 2. -/
theorem run_steps_fail_fast_witness :
    run_steps ["configure", "build", "install"] (fun j => if j = 1 then 2 else 0) =
      ([(0, "configure"), (1, "build")], .exited 2) ∧
    run_steps ["autoconf", "configure"] (fun _ => 0) =
      ([(0, "autoconf"), (1, "configure")], .completed) := by
  constructor
  · have h := (run_steps_fail_fast.1 ["configure"] "build" ["install"]
      (fun j => if j = 1 then 2 else 0)
      (by intro s hs; simp at hs; subst hs; decide)
      (by decide)
      (by intro j hj; simp at hj; subst hj; rfl)
      (by decide)).1
    exact h
  · have h := (run_steps_fail_fast.2 ["autoconf", "configure"] (fun _ => 0)
      (by intro s hs; simp at hs; rcases hs with rfl | rfl <;> decide)
      (fun _ => rfl)).1
    exact h

/-- C9 counterexample: the claim says an invalid step name aborts the run
with a usage error before any step executes.  Running
`run_steps ["build", "bogus"]` executes the valid step `build` first and
only then aborts with `KeyError` when it reaches `"bogus"` — so at least
one step did execute, and the abort is an uncaught exception, not an
upfront usage error. -/
theorem run_steps_invalid_counterexample :
    run_steps ["build", "bogus"] (fun _ => 0) =
      ([(0, "build")], .keyError "bogus") ∧
    (run_steps ["build", "bogus"] (fun _ => 0)).1 ≠ [] := by
  have h1 : run_steps ["build", "bogus"] (fun _ => 0) =
      ([(0, "build")], .keyError "bogus") := rfl
  exact ⟨h1, by rw [h1]; decide⟩

/-- C9 (amended): step names are not validated up front.  The valid steps
before the first invalid name execute (as long as they succeed); on
reaching the invalid name the run aborts with an uncaught `KeyError`
(process exit status 1, not a usage error), and no later step executes. -/
theorem run_steps_invalid_amended
    (pre : List String) (bad : String) (rest : List String) (status : Nat → Int)
    (hpre : ∀ s ∈ pre, stepNames.contains s = true)
    (hbad : stepNames.contains bad = false)
    (hz : ∀ j, j < pre.length → status j = 0) :
    run_steps (pre ++ bad :: rest) status = (pre.enum, .keyError bad) ∧
    overall_exit (run_steps (pre ++ bad :: rest) status).2 = 1 := by
  have hz0 : ∀ j, j < pre.length → status (0 + j) = 0 := by
    intro j hj
    simpa [Nat.zero_add] using hz j hj
  have h := run_steps_from_ok status pre 0 hpre hz0 (bad :: rest)
  have e1 : run_steps_from status (bad :: rest) (0 + pre.length) =
      ([], .keyError bad) := by
    simp only [run_steps_from, hbad]
    rfl
  rw [e1] at h
  have hrs : run_steps (pre ++ bad :: rest) status = (pre.enum, .keyError bad) := by
    show run_steps_from status (pre ++ bad :: rest) 0 = _
    rw [h, List.append_nil]
    rfl
  exact ⟨hrs, by rw [hrs]; rfl⟩

/-- Witness for the amended C9 statement at a concrete run. -/
theorem run_steps_invalid_amended_witness :
    run_steps ["build", "bogus", "install"] (fun _ => 0) =
      ([(0, "build")], .keyError "bogus") :=
  (run_steps_invalid_amended ["build"] "bogus" ["install"] (fun _ => 0)
    (by intro s hs; simp at hs; subst hs; decide)
    (by decide)
    (by intro j hj; simp at hj; subst hj; rfl)).1

/-! ## State-resolution lemmas -/

theorem touch_exist_ok (fs : String → Bool) (p : String) :
    ∃ fs', touch fs p true = .ok fs' ∧ fs' p = true ∧
      (∀ q, fs q = true → fs' q = true) := by
  by_cases h : fs p = true
  · exact ⟨fs, by simp [touch, h], h, fun q hq => hq⟩
  · refine ⟨fun q => q == p || fs q, by simp [touch, h], by simp, ?_⟩
    intro q hq
    simp [hq]

/-- C6: `use_stow` holds exactly when the `--large` flag was passed or the
`.stow` trigger file exists; when it holds, the effective prefix is
`<stow-base>/<cwd-name>` regardless of `PREFIX`, the `.stow` trigger file
exists afterwards, and touching an already-existing trigger file is not an
error (it returns the filesystem unchanged). -/
theorem stow_resolution (large no_sudo : Bool) (fs : String → Bool)
    (prefixEnv : Option String) (cwdName : String) :
    (∃ res, mainResolve large no_sudo fs prefixEnv cwdName = .ok res ∧
      res.use_stow = (large || fs ".stow") ∧
      (res.use_stow = true →
        res.prefix_ = STOW_PREFIX_BASE ++ "/" ++ cwdName ∧
        res.fs ".stow" = true)) ∧
    (fs ".stow" = true → touch fs ".stow" true = .ok fs) := by
  constructor
  · obtain ⟨fs1, htouch1, hp1, hmono1⟩ := touch_exist_ok fs ".stow"
    by_cases hstow : (large || fs ".stow") = true
    · by_cases hns : no_sudo = true
      · obtain ⟨fs2, htouch2, hp2, hmono2⟩ := touch_exist_ok fs1 ".no-sudo"
        refine ⟨⟨large || fs ".stow", !no_sudo && !fs ".no-sudo",
                 STOW_PREFIX_BASE ++ "/" ++ cwdName, fs2⟩, ?_, rfl, ?_⟩
        · simp [mainResolve, hstow, htouch1, hns, htouch2]
        · intro _
          exact ⟨rfl, hmono2 ".stow" hp1⟩
      · have hns' : no_sudo = false := by
          cases no_sudo with
          | false => rfl
          | true => exact absurd rfl hns
        refine ⟨⟨large || fs ".stow", !no_sudo && !fs ".no-sudo",
                 STOW_PREFIX_BASE ++ "/" ++ cwdName, fs1⟩, ?_, rfl, ?_⟩
        · simp [mainResolve, hstow, htouch1, hns']
        · intro _
          exact ⟨rfl, hp1⟩
    · have hstow' : (large || fs ".stow") = false := by
        cases h : (large || fs ".stow") with
        | false => rfl
        | true => exact absurd h hstow
      by_cases hns : no_sudo = true
      · obtain ⟨fs2, htouch2, hp2, hmono2⟩ := touch_exist_ok fs ".no-sudo"
        refine ⟨⟨large || fs ".stow", !no_sudo && !fs ".no-sudo",
                 prefixEnv.getD DEFAULT_PREFIX, fs2⟩, ?_, rfl, ?_⟩
        · simp [mainResolve, hstow', htouch2, hns]
        · intro h
          rw [hstow'] at h
          cases h
      · have hns' : no_sudo = false := by
          cases no_sudo with
          | false => rfl
          | true => exact absurd rfl hns
        refine ⟨⟨large || fs ".stow", !no_sudo && !fs ".no-sudo",
                 prefixEnv.getD DEFAULT_PREFIX, fs⟩, ?_, rfl, ?_⟩
        · simp [mainResolve, hstow', hns']
        · intro h
          rw [hstow'] at h
          cases h
  · intro h
    simp [touch, h]

/-- Witness for C6: a working directory named `myproj-1.0` with an
existing `.stow` trigger and no flags resolves to the stow prefix. -/
theorem stow_resolution_witness :
    ∃ res, mainResolve false false (fun q => q == ".stow") (some "/x") "myproj-1.0" =
        .ok res ∧
      res.prefix_ = "/opt/stow/myproj-1.0" ∧ res.fs ".stow" = true := by
  obtain ⟨⟨res, hok, hstow, himp⟩, _⟩ :=
    stow_resolution false false (fun q => q == ".stow") (some "/x") "myproj-1.0"
  have hs : res.use_stow = true := by rw [hstow]; decide
  obtain ⟨hp, hf⟩ := himp hs
  refine ⟨res, hok, ?_, hf⟩
  rw [hp]
  decide

/-! ## Sanitizer lemmas -/

theorem takeWhile_append_all {p : Char → Bool} :
    ∀ (w r : List Char), (∀ c ∈ w, p c = true) →
      (w ++ r).takeWhile p = w ++ r.takeWhile p := by
  intro w
  induction w with
  | nil => intro r _; rfl
  | cons c w ih =>
    intro r hw
    have hc : p c = true := hw c (List.mem_cons_self c w)
    rw [List.cons_append, List.takeWhile_cons_of_pos hc,
      ih r (fun x hx => hw x (List.mem_cons_of_mem c hx))]
    rfl

theorem dropWhile_head_false {p : Char → Bool} :
    ∀ {l : List Char} {d : Char} {t : List Char},
      l.dropWhile p = d :: t → p d = false := by
  intro l
  induction l with
  | nil => intro d t h; cases h
  | cons c l ih =>
    intro d t h
    by_cases hc : p c
    · rw [List.dropWhile_cons_of_pos hc] at h
      exact ih h
    · rw [List.dropWhile_cons_of_neg hc] at h
      injection h with h1 h2
      subst h1
      simpa using hc

theorem afterLastNl_decomp (w : List Char) :
    w = (w.reverse.dropWhile notNl).reverse ++ afterLastNl w := by
  conv_lhs => rw [← List.reverse_reverse w,
    ← List.takeWhile_append_dropWhile (p := notNl) (l := w.reverse)]
  rw [List.reverse_append]
  rfl

theorem afterLastNl_no_nl {w : List Char} {c : Char} (h : c ∈ afterLastNl w) :
    c ≠ '\n' := by
  have h1 : c ∈ w.reverse.takeWhile notNl := List.mem_reverse.mp h
  have h2 : notNl c = true := List.mem_takeWhile_imp h1
  simpa [notNl] using h2

theorem afterLastNl_mem {w : List Char} {c : Char} (h : c ∈ afterLastNl w) :
    c ∈ w := by
  have h1 : c ∈ w.reverse.takeWhile notNl := List.mem_reverse.mp h
  exact List.mem_reverse.mp ((List.takeWhile_sublist notNl).subset h1)

theorem sub1_sublist (l : List Char) : List.Sublist (sub1 l) l := by
  induction l using sub1.induct with
  | case1 => simp [sub1]
  | case2 rest n heq ih =>
    rw [sub1, if_pos rfl, heq]
    exact List.Sublist.cons _ (ih.trans (List.drop_sublist _ _))
  | case3 rest heq ih =>
    rw [sub1, if_pos rfl, heq]
    exact List.Sublist.cons₂ _ ih
  | case4 c rest h ih =>
    rw [sub1, if_neg h]
    exact List.Sublist.cons₂ _ ih

theorem sub1_id {l : List Char} (h : ∀ c ∈ l, c ≠ '\x1b') : sub1 l = l := by
  induction l using sub1.induct with
  | case1 => simp [sub1]
  | case2 rest n heq ih =>
    exact absurd rfl (h '\x1b' (List.mem_cons_self _ _))
  | case3 rest heq ih =>
    exact absurd rfl (h '\x1b' (List.mem_cons_self _ _))
  | case4 c rest hc ih =>
    rw [sub1, if_neg hc, ih (fun x hx => h x (List.mem_cons_of_mem c hx))]

theorem sub2_sublist (l : List Char) : List.Sublist (sub2 l) l := by
  induction l using sub2.induct with
  | case1 => simp [sub2]
  | case2 rest n heq ih =>
    rw [sub2, if_pos rfl, heq]
    exact List.Sublist.cons _ (ih.trans (List.drop_sublist _ _))
  | case3 rest heq ih =>
    rw [sub2, if_pos rfl, heq]
    exact List.Sublist.cons₂ _ ih
  | case4 c rest h ih =>
    rw [sub2, if_neg h]
    exact List.Sublist.cons₂ _ ih

theorem sub2_id {l : List Char} (h : ∀ c ∈ l, c ≠ '\x1b') : sub2 l = l := by
  induction l using sub2.induct with
  | case1 => simp [sub2]
  | case2 rest n heq ih =>
    exact absurd rfl (h '\x1b' (List.mem_cons_self _ _))
  | case3 rest heq ih =>
    exact absurd rfl (h '\x1b' (List.mem_cons_self _ _))
  | case4 c rest hc ih =>
    rw [sub2, if_neg hc, ih (fun x hx => h x (List.mem_cons_of_mem c hx))]

theorem sub3_sublist (l : List Char) : List.Sublist (sub3 l) l :=
  List.filter_sublist l

theorem sub3_id {l : List Char} (h : ∀ c ∈ l, removedCtrl c = false) :
    sub3 l = l := by
  apply List.filter_eq_self.mpr
  intro a ha
  simp [h a ha]

theorem sub3_no_removed {l : List Char} {c : Char} (h : c ∈ sub3 l) :
    removedCtrl c = false := by
  have h2 := (List.mem_filter.mp h).2
  simpa using h2

theorem sub4_sublist (l : List Char) : List.Sublist (sub4 l) l := by
  induction l using sub4.induct with
  | case1 => simp [sub4]
  | case2 c rest h ih =>
    rw [sub4, dif_pos h]
    obtain ⟨rfl, hmem⟩ := h
    refine List.Sublist.cons₂ _ (ih.trans ?_)
    have h1 := (List.suffix_append
      (((rest.takeWhile pySpace).reverse.dropWhile notNl).reverse)
      (afterLastNl (rest.takeWhile pySpace) ++ rest.dropWhile pySpace)).sublist
    rw [← List.append_assoc, ← afterLastNl_decomp,
      List.takeWhile_append_dropWhile] at h1
    exact h1
  | case3 c rest h ih =>
    rw [sub4, dif_neg h]
    exact List.Sublist.cons₂ _ ih

theorem sub5_sublist (l : List Char) : List.Sublist (sub5 l) l := by
  induction l using sub5.induct with
  | case1 => simp [sub5]
  | case2 c => simp [sub5]
  | case3 a b rest h ih =>
    obtain ⟨rfl, rfl⟩ := h
    rw [sub5, if_pos (And.intro rfl rfl)]
    exact List.Sublist.cons₂ '\n' (ih.trans (List.dropWhile_sublist isNl))
  | case4 a b rest h ih =>
    rw [sub5, if_neg h]
    exact List.Sublist.cons₂ _ ih

theorem filter_chars_sublist (l : List Char) : List.Sublist (filter_chars l) l :=
  ((((sub5_sublist _).trans (sub4_sublist _)).trans (sub3_sublist _)).trans
    (sub2_sublist _)).trans (sub1_sublist _)

theorem sub4_append_no_nl :
    ∀ (w r : List Char), (∀ c ∈ w, c ≠ '\n') →
      sub4 (w ++ r) = w ++ sub4 r := by
  intro w
  induction w with
  | nil => intro r _; rfl
  | cons c w ih =>
    intro r hw
    have hc : c ≠ '\n' := hw c (List.mem_cons_self c w)
    rw [List.cons_append, sub4, dif_neg (fun hh => hc hh.1),
      ih r (fun x hx => hw x (List.mem_cons_of_mem c hx))]
    rfl

theorem sub4_takeWhile_dropWhile_nil :
    ∀ (r : List Char), (∀ d t, r = d :: t → pySpace d = false) →
      (sub4 r).takeWhile pySpace = [] := by
  intro r hr
  cases r with
  | nil => simp [sub4]
  | cons d t =>
    have hd : pySpace d = false := hr d t rfl
    have hdn : d ≠ '\n' := by
      intro hh
      subst hh
      rw [show pySpace '\n' = true from by decide] at hd
      cases hd
    rw [sub4, dif_neg (fun hh => hdn hh.1)]
    exact List.takeWhile_cons_of_neg (by simp [hd])

theorem sub4_id : ∀ {l : List Char}, ¬ hasM4 l → sub4 l = l := by
  intro l
  induction l using sub4.induct with
  | case1 => intro _; simp [sub4]
  | case2 c rest h ih =>
    intro hno
    exact absurd (Or.inl h) hno
  | case3 c rest h ih =>
    intro hno
    have hno' : ¬ hasM4 rest := fun ht => hno (Or.inr ht)
    rw [sub4, dif_neg h, ih hno']

theorem hasM4_sub4 (l : List Char) : ¬ hasM4 (sub4 l) := by
  induction l using sub4.induct with
  | case1 =>
    intro h
    rw [sub4] at h
    exact h
  | case2 c rest h ih =>
    obtain ⟨rfl, hmem⟩ := h
    rw [sub4, dif_pos (And.intro rfl hmem)]
    intro hbad
    simp only [hasM4] at hbad
    rcases hbad with ⟨_, hin⟩ | htail
    · rw [sub4_append_no_nl _ _ (fun c hc => afterLastNl_no_nl hc),
        takeWhile_append_all _ _
          (fun c hc => List.mem_takeWhile_imp (afterLastNl_mem hc)),
        sub4_takeWhile_dropWhile_nil _ (fun d t hdt => dropWhile_head_false hdt),
        List.append_nil] at hin
      exact afterLastNl_no_nl hin rfl
    · exact ih htail
  | case3 c rest h ih =>
    rw [sub4, dif_neg h]
    intro hbad
    simp only [hasM4] at hbad
    rcases hbad with ⟨hcnl, hin⟩ | htail
    · subst hcnl
      have hnmem : '\n' ∉ rest.takeWhile pySpace := fun hm => h ⟨rfl, hm⟩
      have hw : ∀ x ∈ rest.takeWhile pySpace, x ≠ '\n' := by
        intro x hx hxeq
        subst hxeq
        exact hnmem hx
      have hrw : sub4 rest =
          rest.takeWhile pySpace ++ sub4 (rest.dropWhile pySpace) := by
        conv_lhs => rw [← List.takeWhile_append_dropWhile (p := pySpace) (l := rest)]
        rw [sub4_append_no_nl _ _ hw]
      rw [hrw, takeWhile_append_all _ _ (fun x hx => List.mem_takeWhile_imp hx),
        sub4_takeWhile_dropWhile_nil _ (fun d t hdt => dropWhile_head_false hdt),
        List.append_nil] at hin
      exact hnmem hin
    · exact ih htail

theorem hasM5_imp_hasM4 : ∀ {l : List Char}, hasM5 l → hasM4 l := by
  intro l
  induction l with
  | nil => intro h; exact h.elim
  | cons a t ih =>
    intro h
    cases t with
    | nil => exact h.elim
    | cons b rest =>
      simp only [hasM5] at h
      rcases h with ⟨rfl, rfl⟩ | h2
      · refine Or.inl ⟨rfl, ?_⟩
        rw [List.takeWhile_cons_of_pos (show pySpace '\n' = true from by decide)]
        exact List.mem_cons_self _ _
      · exact Or.inr (ih h2)

theorem sub5_id : ∀ {l : List Char}, ¬ hasM5 l → sub5 l = l := by
  intro l
  induction l using sub5.induct with
  | case1 => intro _; simp [sub5]
  | case2 c => intro _; simp [sub5]
  | case3 a b rest h ih =>
    intro hno
    exact absurd (Or.inl h) hno
  | case4 a b rest h ih =>
    intro hno
    have hno' : ¬ hasM5 (b :: rest) := fun ht => hno (Or.inr ht)
    rw [sub5, if_neg h, ih hno']

theorem sub5_sub4 (l : List Char) : sub5 (sub4 l) = sub4 l :=
  sub5_id (fun h5 => hasM4_sub4 l (hasM5_imp_hasM4 h5))

theorem removedCtrl_esc : removedCtrl '\x1b' = true := by decide

/-- C10: the Output Sanitizer only deletes characters: the sanitized text
is a subsequence of the raw text, and in particular never longer. -/
theorem filter_output_sublist (s : String) :
    List.Sublist (filter_output s).data s.data ∧
      (filter_output s).length ≤ s.length := by
  have h : List.Sublist (filter_chars s.data) s.data := filter_chars_sublist s.data
  exact ⟨h, h.length_le⟩

/-- C4: the Output Sanitizer is idempotent: sanitizing already-sanitized
text yields the same text. -/
theorem filter_output_idempotent (s : String) :
    filter_output (filter_output s) = filter_output s := by
  have key : ∀ l : List Char, filter_chars (filter_chars l) = filter_chars l := by
    intro l
    have h1 : filter_chars l = sub4 (sub3 (sub2 (sub1 l))) := sub5_sub4 _
    have hctrl : ∀ c ∈ sub4 (sub3 (sub2 (sub1 l))), removedCtrl c = false := by
      intro c hc
      exact sub3_no_removed ((sub4_sublist _).subset hc)
    have hesc : ∀ c ∈ sub4 (sub3 (sub2 (sub1 l))), c ≠ '\x1b' := by
      intro c hc heq
      have h2 := hctrl c hc
      rw [heq, removedCtrl_esc] at h2
      cases h2
    have hno4 : ¬ hasM4 (sub4 (sub3 (sub2 (sub1 l)))) := hasM4_sub4 _
    have hno5 : ¬ hasM5 (sub4 (sub3 (sub2 (sub1 l)))) :=
      fun h5 => hno4 (hasM5_imp_hasM4 h5)
    rw [h1]
    show filter_chars (sub4 (sub3 (sub2 (sub1 l)))) = _
    unfold filter_chars
    rw [sub1_id hesc, sub2_id hesc, sub3_id hctrl, sub4_id hno4, sub5_id hno5]
  exact congrArg String.mk (key s.data)
